import Mathlib

/-!
Verification of the Turkish syllabification module
(`src/python/durak/syllabification.py`).

Words are modelled as `List Char` (Unicode codepoints).  The Python module
first applies `unicodedata.normalize("NFC", word)`; NFC is the identity on
NFC-normal strings, and the embedding models the behaviour of the module on
its post-normalization inputs, so the NFC step is the identity here.  Python's
`str.lower()` / `str.upper()` / `str.isupper()` are modelled per character
(Python's case mappings are per-character maps on codepoints): the tables
cover the alphabet the module works with (ASCII letters, the Turkish letters
ç ğ ı i ö ş ü and the circumflex vowels â î û, upper and lower case) together
with the characters whose Python case behaviour does NOT round-trip and which
therefore decide the length-preservation claims: the dotted capital İ, whose
lowercasing is the two-codepoint sequence "i" + U+0307; the capital sharp s ẞ,
which lowercases to ß while ß uppercases to the two-codepoint "SS"; and the
titlecase digraph ǅ (with its family Ǆ, ǆ), which lowercases to ǆ but is not
`isupper()`, so case restoration never maps it back.  Characters outside these
tables are caseless, exactly as in Python for digits, punctuation and the
other characters the module classifies as neutral.
-/

namespace Durak

/-- Model of the module constant `VOWELS = frozenset("aeıioöuüâîû")`. -/
def VOWELS : List Char := ['a', 'e', 'ı', 'i', 'o', 'ö', 'u', 'ü', 'â', 'î', 'û']

/-- Model of the module constant `CONSONANTS = frozenset("bcçdfgğhjklmnprsştvyzqwx")`. -/
def CONSONANTS : List Char :=
  ['b', 'c', 'ç', 'd', 'f', 'g', 'ğ', 'h', 'j', 'k', 'l', 'm',
   'n', 'p', 'r', 's', 'ş', 't', 'v', 'y', 'z', 'q', 'w', 'x']

/-- Membership test `char in self.vowels`. -/
def isVowel (c : Char) : Bool := VOWELS.contains c

/-- Membership test `char in self.consonants`. -/
def isConsonant (c : Char) : Bool := CONSONANTS.contains c

/-- Pairs (character, lowercase) of the single-codepoint mappings of Python
`str.lower` on the modelled domain: the module's alphabet plus the
non-round-tripping cased characters ẞ (U+1E9E, lowers to ß) and the digraph
family Ǆ/ǅ (U+01C4 uppercase and U+01C5 titlecase, both lower to ǆ U+01C6).
The dotted capital İ is NOT in this table: its Python lowercasing expands to
two codepoints and is handled separately in `pyLowerChar`. -/
def lowerMap : List (Char × Char) :=
  [('A', 'a'), ('B', 'b'), ('C', 'c'), ('D', 'd'), ('E', 'e'), ('F', 'f'),
   ('G', 'g'), ('H', 'h'), ('I', 'i'), ('J', 'j'), ('K', 'k'), ('L', 'l'),
   ('M', 'm'), ('N', 'n'), ('O', 'o'), ('P', 'p'), ('Q', 'q'), ('R', 'r'),
   ('S', 's'), ('T', 't'), ('U', 'u'), ('V', 'v'), ('W', 'w'), ('X', 'x'),
   ('Y', 'y'), ('Z', 'z'),
   ('Ç', 'ç'), ('Ğ', 'ğ'), ('Ö', 'ö'), ('Ş', 'ş'), ('Ü', 'ü'),
   ('Â', 'â'), ('Î', 'î'), ('Û', 'û'),
   ('ẞ', 'ß'), ('Ǆ', 'ǆ'), ('ǅ', 'ǆ')]

/-- Pairs (character, uppercase) of the single-codepoint mappings of Python
`str.upper` on the modelled domain.  Note the non-Turkish-aware mappings:
both i and ı uppercase to the ASCII I; the digraphs ǅ and ǆ uppercase to Ǆ.
The sharp s ß is NOT in this table: its Python uppercasing expands to the
two codepoints "SS" and is handled separately in `pyUpperChar`. -/
def upperMap : List (Char × Char) :=
  [('a', 'A'), ('b', 'B'), ('c', 'C'), ('d', 'D'), ('e', 'E'), ('f', 'F'),
   ('g', 'G'), ('h', 'H'), ('i', 'I'), ('j', 'J'), ('k', 'K'), ('l', 'L'),
   ('m', 'M'), ('n', 'N'), ('o', 'O'), ('p', 'P'), ('q', 'Q'), ('r', 'R'),
   ('s', 'S'), ('t', 'T'), ('u', 'U'), ('v', 'V'), ('w', 'W'), ('x', 'X'),
   ('y', 'Y'), ('z', 'Z'),
   ('ç', 'Ç'), ('ğ', 'Ğ'), ('ı', 'I'), ('ö', 'Ö'), ('ş', 'Ş'), ('ü', 'Ü'),
   ('â', 'Â'), ('î', 'Î'), ('û', 'Û'),
   ('ǅ', 'Ǆ'), ('ǆ', 'Ǆ')]

/-- The combining dot above, U+0307, produced by Python when lowercasing İ. -/
def combiningDotAbove : Char := '̇'

/-- The characters of the modelled domain for which Python `ch.isupper()` is
true (category Lu): the uppercase alphabet, İ, ẞ and Ǆ.  The titlecase ǅ
(category Lt) is deliberately absent: Python's `isupper()` is False for it,
which is what makes case restoration lose it. -/
def upperChars : List Char :=
  ['A', 'B', 'C', 'D', 'E', 'F', 'G', 'H', 'I', 'J', 'K', 'L', 'M',
   'N', 'O', 'P', 'Q', 'R', 'S', 'T', 'U', 'V', 'W', 'X', 'Y', 'Z',
   'Ç', 'Ğ', 'İ', 'Ö', 'Ş', 'Ü', 'Â', 'Î', 'Û', 'ẞ', 'Ǆ']

/-- Model of Python `ch.isupper()` on the modelled domain. -/
def pyIsUpper (c : Char) : Bool := upperChars.contains c

/-- Model of Python `str.lower` on one character: İ expands to "i" + U+0307
(the Unicode special casing Python applies), table characters map through
`lowerMap`, every other character is unchanged. -/
def pyLowerChar (c : Char) : List Char :=
  if c == 'İ' then ['i', combiningDotAbove]
  else
    match lowerMap.find? (fun p => p.1 == c) with
    | some p => [p.2]
    | none => [c]

/-- Model of Python `ch.upper()` on one character, as a string: ß expands to
the two codepoints "SS" (which makes `_restore_case` non-length-preserving in
the program), table characters map through `upperMap`, every other character
is unchanged. -/
def pyUpperChar (c : Char) : List Char :=
  if c == 'ß' then ['S', 'S']
  else
    match upperMap.find? (fun p => p.1 == c) with
    | some p => [p.2]
    | none => [c]

/-- Model of `word.lower()`: per-character lowering, concatenated. -/
def lowerWord (w : List Char) : List Char := (w.map pyLowerChar).flatten

/-- The fixed table of `Syllabifier._is_valid_onset`:
tr, pr, kr, gr, br, dr, fr, pl, kl, bl, fl, gl. -/
def validOnsets : List (List Char) :=
  [['t', 'r'], ['p', 'r'], ['k', 'r'], ['g', 'r'], ['b', 'r'], ['d', 'r'],
   ['f', 'r'], ['p', 'l'], ['k', 'l'], ['b', 'l'], ['f', 'l'], ['g', 'l']]

/-- Model of `Syllabifier._is_valid_onset(cluster)`. -/
def isValidOnset (cluster : List Char) : Bool := validOnsets.contains cluster

/-- The consonant-counting loop of `Syllabifier._find_break_point`: length of
the leading run of consecutive consonants (a vowel or a neutral character
both stop the run). -/
def countLeadingConsonants : List Char → Nat
  | [] => 0
  | c :: rest => if isConsonant c then countLeadingConsonants rest + 1 else 0

/-- Model of `Syllabifier._find_break_point(current_syllable, remaining)`.
The Python `current_syllable` parameter is unused by the function body and is
dropped.  Returns how many characters of `remaining` to consume into the
current syllable before breaking. -/
def findBreakPoint (remaining : List Char) : Nat :=
  if remaining.isEmpty then 0
  else
    let cc := countLeadingConsonants remaining
    if cc = 0 then 0
    else if cc = 1 then 0
    else if cc = 2 then
      if isValidOnset (remaining.take 2) then 0 else 1
    else 1

/-- Model of the while-loop of `Syllabifier._segment`, one step per
character of the scanned suffix.  Returns the emitted syllables and the
final content of the accumulator `current`.  `fuel` bounds the number of
loop iterations; every iteration consumes at least one character of the
suffix, so `fuel = |suffix|` (as used by `segAux`) always suffices and the
zero-fuel branch is unreachable from `segAux`. -/
def segAuxF : Nat → List Char → List Char → List (List Char) × List Char
  | 0, current, _ => ([], current)
  | _ + 1, current, [] => ([], current)
  | fuel + 1, current, c :: rest =>
    if isVowel c then
      if rest.isEmpty then ([current ++ [c]], [])
      else
        let bp := findBreakPoint rest
        if bp = 0 then
          let r := segAuxF fuel [] rest
          ((current ++ [c]) :: r.1, r.2)
        else
          let r := segAuxF fuel [] (rest.drop bp)
          ((current ++ [c] ++ rest.take bp) :: r.1, r.2)
    else
      segAuxF fuel (current ++ [c]) rest

/-- The while-loop of `Syllabifier._segment`, run on a whole suffix. -/
def segAux (current rest : List Char) : List (List Char) × List Char :=
  segAuxF rest.length current rest

/-- The post-loop fixup of `Syllabifier._segment`: a non-empty leftover is
appended to the last emitted syllable, or becomes the sole syllable when
nothing was emitted. -/
def appendLast : List (List Char) → List Char → List (List Char)
  | [], l => [l]
  | [s], l => [s ++ l]
  | s :: s2 :: rest, l => s :: appendLast (s2 :: rest) l

/-- Model of `Syllabifier._segment(word)`. -/
def segment (w : List Char) : List (List Char) :=
  let r := segAux [] w
  if r.2.isEmpty then r.1 else appendLast r.1 r.2

/-- The inner loop of `Syllabifier._restore_case` on one syllable: walks the
syllable and the not-yet-consumed part of the original word in lock-step,
appending `char.upper()` (possibly more than one codepoint, as for ß) when
the original counterpart is uppercase and the character itself otherwise;
when the original word is exhausted the remaining characters are copied
unchanged.  Returns the restored syllable and the remaining original
suffix. -/
def restoreSyl : List Char → List Char → List Char × List Char
  | [], orig => ([], orig)
  | c :: cs, [] => (c :: cs, [])
  | c :: cs, o :: os =>
    let r := restoreSyl cs os
    ((if pyIsUpper o then pyUpperChar c else [c]) ++ r.1, r.2)

/-- Model of `Syllabifier._restore_case(syllables, original)`. -/
def restoreCase : List (List Char) → List Char → List (List Char)
  | [], _ => []
  | s :: ss, orig =>
    let r := restoreSyl s orig
    r.1 :: restoreCase ss r.2

/-- Model of `Syllabifier.syllabify(word)` with `separator=None`: the list of
case-restored syllables. -/
def syllabifyList (w : List Char) : List (List Char) :=
  if w.isEmpty then [] else restoreCase (segment (lowerWord w)) w

/-- Model of Python `separator.join(syllables)`. -/
def joinSep (sep : List Char) : List (List Char) → List Char
  | [] => []
  | [s] => s
  | s :: s2 :: rest => s ++ sep ++ joinSep sep (s2 :: rest)

/-- Model of `Syllabifier.syllabify(word, separator)` with its
`Union[List[str], str]` return type as a sum: `Sum.inl` is the list return,
`Sum.inr` the joined-string return.  The early return for a falsy word is
`"" if separator else []`, which tests the TRUTHINESS of the separator, so a
supplied empty separator falls into the list branch there, while the join
branch below tests `separator is not None`. -/
def syllabify (w : List Char) (sep : Option (List Char)) :
    List (List Char) ⊕ List Char :=
  if w.isEmpty then
    match sep with
    | none => Sum.inl []
    | some s => if s.isEmpty then Sum.inl [] else Sum.inr []
  else
    match sep with
    | none => Sum.inl (syllabifyList w)
    | some s => Sum.inr (joinSep s (syllabifyList w))

/-- Model of `Syllabifier.count(word)`: the length of the returned list, or 0
if a string were returned (with `separator=None` the list branch is always
taken). -/
def count (w : List Char) : Nat :=
  match syllabify w none with
  | Sum.inl l => l.length
  | Sum.inr _ => 0

/-- Model of the dataclass `SyllableInfo`.  The Python field `structure` is a
Lean keyword and is named `structureCodes` here. -/
structure SyllableInfo where
  word : List Char
  syllables : List (List Char)
  count : Nat
  structureCodes : List (List Char)
deriving DecidableEq

/-- The shape-code loop of `Syllabifier.analyze` on one syllable: classify
each character of the lowercased syllable as V or C, skipping characters
that are neither. -/
def shapeOf (syl : List Char) : List Char :=
  (lowerWord syl).filterMap
    (fun c => if isVowel c then some 'V' else if isConsonant c then some 'C' else none)

/-- Model of `Syllabifier.analyze(word)`.  With `separator=None` the
`isinstance(syllables, str)` branch of the Python code is dead and is not
modelled. -/
def analyze (w : List Char) : SyllableInfo :=
  { word := w
    syllables := syllabifyList w
    count := (syllabifyList w).length
    structureCodes := (syllabifyList w).map shapeOf }

/-- Model of Python `s.split(sep)` for a non-empty separator `sep`
(Python raises ValueError on an empty separator; this model is only ever
instantiated with non-empty separators): leftmost-first non-overlapping
scan.  `fuel` bounds the number of scan steps; every step consumes at least
one character, so `fuel = |s|` (as used by `pySplit`) always suffices, the
zero-fuel branch agreeing with the end-of-string branch. -/
def pySplitAuxF : Nat → List Char → List Char → List Char → List (List Char)
  | 0, _, acc, _ => [acc]
  | _ + 1, _, acc, [] => [acc]
  | fuel + 1, sep, acc, c :: rest =>
    if ¬sep.isEmpty ∧ (c :: rest).take sep.length = sep then
      acc :: pySplitAuxF fuel sep [] ((c :: rest).drop sep.length)
    else
      pySplitAuxF fuel sep (acc ++ [c]) rest

/-- Model of Python `s.split(sep)` for non-empty `sep`. -/
def pySplit (sep s : List Char) : List (List Char) :=
  pySplitAuxF s.length sep [] s

/-- Proof-side helper: the flattened action of `restoreSyl` over a whole word,
walking a lowercase character list and the original word in lock-step. -/
def restoreFlat : List Char → List Char → List Char
  | [], _ => []
  | c :: cs, [] => c :: cs
  | c :: cs, o :: os =>
    (if pyIsUpper o then pyUpperChar c else [c]) ++ restoreFlat cs os

/-- Membership characterization of `isVowel`. -/
theorem isVowel_iff_mem (c : Char) : isVowel c = true ↔ c ∈ VOWELS :=
  List.elem_iff

/-- Membership characterization of `isConsonant`. -/
theorem isConsonant_iff_mem (c : Char) : isConsonant c = true ↔ c ∈ CONSONANTS :=
  List.elem_iff

/-- The vowel and consonant sets are disjoint: a consonant is not a vowel. -/
theorem isConsonant_not_isVowel (c : Char) (h : isConsonant c = true) :
    isVowel c = false := by
  have hc : c ∈ CONSONANTS := (isConsonant_iff_mem c).mp h
  have : ∀ d ∈ CONSONANTS, isVowel d = false := by decide
  exact this c hc

/-- Lowering a character never yields the empty string. -/
theorem pyLowerChar_ne_nil (c : Char) : pyLowerChar c ≠ [] := by
  unfold pyLowerChar
  by_cases hI : c == 'İ'
  · simp [hI]
  · cases hfind : lowerMap.find? (fun p => p.1 == c) with
    | some p => simp [hI, hfind]
    | none => simp [hI, hfind]

/-- Lowering a character yields one codepoint, except for the dotted capital İ. -/
theorem pyLowerChar_length_eq_one_or (c : Char) :
    (pyLowerChar c).length = 1 ∨ c = 'İ' := by
  unfold pyLowerChar
  by_cases hI : c == 'İ'
  · exact Or.inr (eq_of_beq hI)
  · cases hfind : lowerMap.find? (fun p => p.1 == c) with
    | some p => simp [hI, hfind]
    | none => simp [hI, hfind]

/-- Uppercasing a character never yields the empty string. -/
theorem pyUpperChar_ne_nil (c : Char) : pyUpperChar c ≠ [] := by
  unfold pyUpperChar
  by_cases hb : c == 'ß'
  · simp [hb]
  · cases hfind : upperMap.find? (fun p => p.1 == c) with
    | some p => simp [hb, hfind]
    | none => simp [hb, hfind]

/-- Lowering a non-empty word yields a non-empty word. -/
theorem lowerWord_ne_nil (w : List Char) (h : w ≠ []) : lowerWord w ≠ [] := by
  cases w with
  | nil => exact absurd rfl h
  | cons c t =>
    unfold lowerWord
    simp only [List.map_cons, List.flatten_cons, ne_eq, List.append_eq_nil]
    intro hc
    exact pyLowerChar_ne_nil c hc.1

/-! Lemmas about the break-point rule and the segmentation loop. -/

/-- Unfolding of `findBreakPoint` on a non-empty suffix. -/
theorem findBreakPoint_cons (d : Char) (t : List Char) :
    findBreakPoint (d :: t) =
      (if countLeadingConsonants (d :: t) = 0 then 0
       else if countLeadingConsonants (d :: t) = 1 then 0
       else if countLeadingConsonants (d :: t) = 2 then
         if isValidOnset ((d :: t).take 2) then 0 else 1
       else 1) := rfl

/-- The break point is always 0 or 1, and when it is 1 the suffix starts with
a consonant. -/
theorem findBreakPoint_cases (l : List Char) :
    findBreakPoint l = 0 ∨
      (findBreakPoint l = 1 ∧ ∃ d t, l = d :: t ∧ isConsonant d = true) := by
  cases l with
  | nil => exact Or.inl rfl
  | cons d t =>
    rw [findBreakPoint_cons]
    by_cases hd : isConsonant d = true
    · by_cases h1 : countLeadingConsonants (d :: t) = 0
      · simp [h1]
      · by_cases h2 : countLeadingConsonants (d :: t) = 1
        · simp [h1, h2]
        · by_cases h3 : countLeadingConsonants (d :: t) = 2
          · rw [if_neg h1, if_neg h2, if_pos h3]
            by_cases h4 : isValidOnset ((d :: t).take 2) = true
            · rw [if_pos h4]
              exact Or.inl rfl
            · rw [if_neg h4]
              exact Or.inr ⟨rfl, d, t, rfl, hd⟩
          · rw [if_neg h1, if_neg h2, if_neg h3]
            exact Or.inr ⟨rfl, d, t, rfl, hd⟩
    · have h0 : countLeadingConsonants (d :: t) = 0 := by
        unfold countLeadingConsonants
        simp [hd]
      simp [h0]

/-- The segmentation loop accounts for every character: the emitted syllables
followed by the leftover accumulator spell `current ++ rest`. -/
theorem segAuxF_flatten (f : Nat) : ∀ (current rest : List Char),
    rest.length ≤ f →
    (segAuxF f current rest).1.flatten ++ (segAuxF f current rest).2 =
      current ++ rest := by
  induction f with
  | zero =>
    intro current rest h
    have hrest : rest = [] := List.length_eq_zero.mp (Nat.le_zero.mp h)
    subst hrest
    simp [segAuxF]
  | succ f ih =>
    intro current rest h
    cases rest with
    | nil => simp [segAuxF]
    | cons c t =>
      have ht : t.length ≤ f := by
        simp only [List.length_cons] at h
        omega
      by_cases hv : isVowel c = true
      · by_cases hte : t.isEmpty = true
        · have : t = [] := List.isEmpty_iff.mp hte
          subst this
          simp [segAuxF, hv, hte]
        · rcases findBreakPoint_cases t with hbp | ⟨hbp, d, t2, ht2, hd⟩
          · have hstep : segAuxF (f + 1) current (c :: t) =
                ((current ++ [c]) :: (segAuxF f [] t).1, (segAuxF f [] t).2) := by
              simp [segAuxF, hv, hte, hbp]
            rw [hstep]
            have ih1 := ih [] t ht
            simp only [List.flatten_cons, List.append_assoc, List.nil_append] at ih1 ⊢
            rw [ih1]
            simp
          · subst ht2
            have hstep : segAuxF (f + 1) current (c :: d :: t2) =
                ((current ++ [c] ++ [d]) :: (segAuxF f [] t2).1,
                  (segAuxF f [] t2).2) := by
              simp [segAuxF, hv, hte, hbp]
            rw [hstep]
            have ht2len : t2.length ≤ f := by
              simp only [List.length_cons] at ht
              omega
            have ih1 := ih [] t2 ht2len
            simp only [List.flatten_cons, List.append_assoc, List.nil_append] at ih1 ⊢
            rw [ih1]
            simp
      · have hstep : segAuxF (f + 1) current (c :: t) =
            segAuxF f (current ++ [c]) t := by
          simp [segAuxF, hv]
        rw [hstep, ih (current ++ [c]) t ht]
        simp

/-- The result of `appendLast` is never the empty list of syllables. -/
theorem appendLast_ne_nil : ∀ (sys : List (List Char)) (l : List Char),
    appendLast sys l ≠ []
  | [], _ => by simp [appendLast]
  | [_], _ => by simp [appendLast]
  | _ :: _ :: _, _ => by simp [appendLast]

/-- Appending the leftover to a non-empty syllable list preserves its length. -/
theorem appendLast_length : ∀ (sys : List (List Char)) (l : List Char),
    sys ≠ [] → (appendLast sys l).length = sys.length
  | [], _, h => absurd rfl h
  | [_], _, _ => rfl
  | s :: s2 :: rest, l, _ => by
    simp [appendLast, appendLast_length (s2 :: rest) l (by simp)]

/-- Members of `appendLast sys l` are non-empty when the members of `sys` and
the leftover `l` are. -/
theorem appendLast_mem_ne_nil : ∀ (sys : List (List Char)) (l : List Char),
    (∀ s ∈ sys, s ≠ []) → l ≠ [] → ∀ s ∈ appendLast sys l, s ≠ []
  | [], l, _, hl => by simpa [appendLast] using hl
  | [s], l, hs, _ => by
    intro s2 hs2
    simp only [appendLast, List.mem_singleton] at hs2
    subst hs2
    have := hs s (by simp)
    simp [this]
  | s :: s2 :: rest, l, hs, hl => by
    intro s3 hs3
    simp only [appendLast, List.mem_cons] at hs3
    rcases hs3 with h | h
    · subst h
      exact hs s3 (by simp)
    · exact appendLast_mem_ne_nil (s2 :: rest) l
        (fun a ha => hs a (List.mem_cons_of_mem s ha)) hl s3 h

/-- The segmentation loop emits exactly one syllable per vowel of the
scanned suffix. -/
theorem segAuxF_count (f : Nat) : ∀ (current rest : List Char),
    rest.length ≤ f →
    (segAuxF f current rest).1.length = rest.countP (fun c => isVowel c) := by
  induction f with
  | zero =>
    intro current rest h
    have hrest : rest = [] := List.length_eq_zero.mp (Nat.le_zero.mp h)
    subst hrest
    simp [segAuxF]
  | succ f ih =>
    intro current rest h
    cases rest with
    | nil => simp [segAuxF]
    | cons c t =>
      have ht : t.length ≤ f := by
        simp only [List.length_cons] at h
        omega
      by_cases hv : isVowel c = true
      · by_cases hte : t.isEmpty = true
        · have : t = [] := List.isEmpty_iff.mp hte
          subst this
          simp [segAuxF, hv, hte, List.countP_cons]
        · rcases findBreakPoint_cases t with hbp | ⟨hbp, d, t2, ht2, hd⟩
          · have hstep : segAuxF (f + 1) current (c :: t) =
                ((current ++ [c]) :: (segAuxF f [] t).1, (segAuxF f [] t).2) := by
              simp [segAuxF, hv, hte, hbp]
            rw [hstep]
            simp [List.countP_cons, hv, ih [] t ht]
          · subst ht2
            have hstep : segAuxF (f + 1) current (c :: d :: t2) =
                ((current ++ [c] ++ [d]) :: (segAuxF f [] t2).1,
                  (segAuxF f [] t2).2) := by
              simp [segAuxF, hv, hte, hbp]
            rw [hstep]
            have ht2len : t2.length ≤ f := by
              simp only [List.length_cons] at ht
              omega
            have hdnv : isVowel d = false := isConsonant_not_isVowel d hd
            simp [List.countP_cons, hv, hdnv, ih [] t2 ht2len]
      · have hstep : segAuxF (f + 1) current (c :: t) =
            segAuxF f (current ++ [c]) t := by
          simp [segAuxF, hv]
        rw [hstep, ih (current ++ [c]) t ht]
        simp [List.countP_cons, hv]

/-- Every syllable emitted by the segmentation loop is non-empty. -/
theorem segAuxF_mem_ne_nil (f : Nat) : ∀ (current rest : List Char),
    ∀ s ∈ (segAuxF f current rest).1, s ≠ [] := by
  induction f with
  | zero =>
    intro current rest s hs
    simp [segAuxF] at hs
  | succ f ih =>
    intro current rest s hs
    cases rest with
    | nil => simp [segAuxF] at hs
    | cons c t =>
      by_cases hv : isVowel c = true
      · by_cases hte : t.isEmpty = true
        · simp only [segAuxF, hv, if_true, hte] at hs
          simp only [List.mem_singleton] at hs
          subst hs
          simp
        · by_cases hbp : findBreakPoint t = 0
          · have hstep : segAuxF (f + 1) current (c :: t) =
                ((current ++ [c]) :: (segAuxF f [] t).1, (segAuxF f [] t).2) := by
              simp [segAuxF, hv, hte, hbp]
            rw [hstep] at hs
            rcases List.mem_cons.mp hs with h | h
            · subst h
              simp
            · exact ih [] t s h
          · have hstep : segAuxF (f + 1) current (c :: t) =
                ((current ++ [c] ++ t.take (findBreakPoint t)) ::
                    (segAuxF f [] (t.drop (findBreakPoint t))).1,
                  (segAuxF f [] (t.drop (findBreakPoint t))).2) := by
              simp [segAuxF, hv, hte, hbp]
            rw [hstep] at hs
            rcases List.mem_cons.mp hs with h | h
            · subst h
              simp
            · exact ih [] (t.drop (findBreakPoint t)) s h
      · have hstep : segAuxF (f + 1) current (c :: t) =
            segAuxF f (current ++ [c]) t := by
          simp [segAuxF, hv]
        rw [hstep] at hs
        exact ih (current ++ [c]) t s hs

/-- The restored syllable is the flat lock-step restoration of the syllable
against the original word. -/
theorem restoreSyl_fst : ∀ (s o : List Char),
    (restoreSyl s o).1 = restoreFlat s o
  | [], o => by simp [restoreSyl, restoreFlat]
  | c :: cs, [] => by simp [restoreSyl, restoreFlat]
  | c :: cs, o :: os => by
    simp [restoreSyl, restoreFlat, restoreSyl_fst cs os]

/-- The restored syllable is non-empty when the lowercase syllable is. -/
theorem restoreFlat_ne_nil : ∀ (s o : List Char), s ≠ [] → restoreFlat s o ≠ []
  | [], _, h => absurd rfl h
  | c :: cs, [], _ => by simp [restoreFlat]
  | c :: cs, o :: os, _ => by
    show (if pyIsUpper o then pyUpperChar c else [c]) ++ restoreFlat cs os ≠ []
    intro hnil
    rcases List.append_eq_nil.mp hnil with ⟨h1, _⟩
    by_cases hu : pyIsUpper o = true
    · rw [if_pos hu] at h1
      exact pyUpperChar_ne_nil c h1
    · rw [if_neg hu] at h1
      exact List.cons_ne_nil c [] h1

/-- Case restoration produces one syllable per lowercase syllable. -/
theorem restoreCase_length : ∀ (sys : List (List Char)) (o : List Char),
    (restoreCase sys o).length = sys.length
  | [], _ => rfl
  | s :: ss, o => by
    simp [restoreCase, restoreCase_length ss (restoreSyl s o).2]

/-- Case restoration keeps syllables non-empty. -/
theorem restoreCase_mem_ne_nil : ∀ (sys : List (List Char)) (o : List Char),
    (∀ s ∈ sys, s ≠ []) → ∀ s2 ∈ restoreCase sys o, s2 ≠ []
  | [], o, _ => by simp [restoreCase]
  | s :: ss, o, hs => by
    intro s2 hs2
    simp only [restoreCase, List.mem_cons] at hs2
    rcases hs2 with h | h
    · subst h
      rw [restoreSyl_fst]
      exact restoreFlat_ne_nil s o (hs s (by simp))
    · exact restoreCase_mem_ne_nil ss (restoreSyl s o).2
        (fun a ha => hs a (List.mem_cons_of_mem s ha)) s2 h

/-- Scanning a string that does not contain the separator character finds no
split point and returns the accumulated string whole. -/
theorem pySplitAuxF_no_sep (c : Char) (f : Nat) : ∀ (acc s : List Char),
    s.length ≤ f → c ∉ s → pySplitAuxF f [c] acc s = [acc ++ s] := by
  induction f with
  | zero =>
    intro acc s h _
    have hs : s = [] := List.length_eq_zero.mp (Nat.le_zero.mp h)
    subst hs
    simp [pySplitAuxF]
  | succ f ih =>
    intro acc s h hc
    cases s with
    | nil => simp [pySplitAuxF]
    | cons d rest =>
      have hd : ¬d = c := fun hdc => hc (by simp [hdc])
      have hstep : pySplitAuxF (f + 1) [c] acc (d :: rest) =
          pySplitAuxF f [c] (acc ++ [d]) rest := by
        simp [pySplitAuxF, hd]
      have hrest : rest.length ≤ f := by
        simp only [List.length_cons] at h
        omega
      have hcrest : c ∉ rest := fun hm => hc (List.mem_cons_of_mem d hm)
      rw [hstep, ih (acc ++ [d]) rest hrest hcrest]
      simp

/-- Scanning up to the first occurrence of the separator character emits the
accumulated prefix and restarts after the separator. -/
theorem pySplitAuxF_found (c : Char) : ∀ (s acc t : List Char), c ∉ s →
    pySplitAuxF (s.length + t.length + 1) [c] acc (s ++ c :: t) =
      (acc ++ s) :: pySplitAuxF t.length [c] [] t := by
  intro s
  induction s with
  | nil =>
    intro acc t _
    have hstep : pySplitAuxF (0 + t.length + 1) [c] acc (c :: t) =
        acc :: pySplitAuxF t.length [c] [] t := by
      simp [pySplitAuxF]
    simpa using hstep
  | cons d s2 ih =>
    intro acc t hc
    have hd : ¬d = c := fun hdc => hc (by simp [hdc])
    have hstep : pySplitAuxF ((d :: s2).length + t.length + 1) [c] acc
        ((d :: s2) ++ c :: t) =
        pySplitAuxF ((d :: s2).length + t.length) [c] (acc ++ [d]) (s2 ++ c :: t) := by
      simp only [List.cons_append]
      simp [pySplitAuxF, hd]
    have hfuel : (d :: s2).length + t.length = s2.length + t.length + 1 := by
      simp only [List.length_cons]
      omega
    have hcs2 : c ∉ s2 := fun hm => hc (List.mem_cons_of_mem d hm)
    rw [hstep, hfuel, ih (acc ++ [d]) t hcs2]
    simp

/-- Splitting a single-character join recovers the joined list whenever the
separator character occurs in none of the pieces. -/
theorem pySplit_joinSep_single (c : Char) : ∀ (ls : List (List Char)),
    ls ≠ [] → (∀ s ∈ ls, c ∉ s) → pySplit [c] (joinSep [c] ls) = ls
  | [], h, _ => absurd rfl h
  | [s], _, hs => by
    unfold pySplit joinSep
    rw [pySplitAuxF_no_sep c s.length [] s (Nat.le_refl _) (hs s (by simp))]
    simp
  | s :: s2 :: rest, _, hs => by
    have hj : joinSep [c] (s :: s2 :: rest) = s ++ c :: joinSep [c] (s2 :: rest) := by
      simp [joinSep]
    have hlen : (s ++ c :: joinSep [c] (s2 :: rest)).length =
        s.length + (joinSep [c] (s2 :: rest)).length + 1 := by
      simp [List.length_append, List.length_cons]
      omega
    unfold pySplit
    rw [hj, hlen,
      pySplitAuxF_found c s [] (joinSep [c] (s2 :: rest)) (hs s (by simp))]
    have ih := pySplit_joinSep_single c (s2 :: rest) (by simp)
      (fun a ha => hs a (List.mem_cons_of_mem s ha))
    unfold pySplit at ih
    rw [ih]
    simp

/-- Segmenting a non-empty word yields at least one syllable. -/
theorem segment_ne_nil (w : List Char) (h : w ≠ []) : segment w ≠ [] := by
  unfold segment segAux
  by_cases he : (segAuxF w.length [] w).2.isEmpty = true
  · have hflat := segAuxF_flatten w.length [] w (Nat.le_refl _)
    rw [List.isEmpty_iff] at he
    rw [he, List.append_nil] at hflat
    simp only [he, List.isEmpty_nil, if_true]
    intro hnil
    rw [hnil] at hflat
    simp only [List.flatten_nil, List.nil_append] at hflat
    exact h hflat.symm
  · simp only [he, if_false]
    exact appendLast_ne_nil _ _

/-- Syllabifying a non-empty word yields at least one syllable. -/
theorem syllabifyList_ne_nil (w : List Char) (h : w ≠ []) :
    syllabifyList w ≠ [] := by
  have hemp : ¬(w.isEmpty = true) := fun hh => h (List.isEmpty_iff.mp hh)
  unfold syllabifyList
  rw [if_neg hemp]
  intro hnil
  have hlen := restoreCase_length (segment (lowerWord w)) w
  rw [hnil] at hlen
  exact segment_ne_nil (lowerWord w) (lowerWord_ne_nil w h)
    (List.length_eq_zero.mp hlen.symm)

/-- Claim C2: with exactly two consecutive consonants after the vowel, the
break point is 0 (both consonants start the next syllable) exactly when the
pair is in the valid-onset table tr, pr, kr, gr, br, dr, fr, pl, kl, bl, fl,
gl, and otherwise 1 (one consonant is consumed as coda); `syllabify("tren") =
["tren"]` and `syllabify("merhaba") = ["mer", "ha", "ba"]`. -/
theorem C2_two_consonant_rule :
    (∀ remaining : List Char, countLeadingConsonants remaining = 2 →
      findBreakPoint remaining =
        if remaining.take 2 ∈ validOnsets then 0 else 1)
    ∧ validOnsets =
        [['t', 'r'], ['p', 'r'], ['k', 'r'], ['g', 'r'], ['b', 'r'], ['d', 'r'],
         ['f', 'r'], ['p', 'l'], ['k', 'l'], ['b', 'l'], ['f', 'l'], ['g', 'l']]
    ∧ syllabifyList "tren".toList = ["tren".toList]
    ∧ syllabifyList "merhaba".toList = ["mer".toList, "ha".toList, "ba".toList] := by
  refine ⟨?_, rfl, by decide, by decide⟩
  intro remaining h2
  cases remaining with
  | nil => simp [countLeadingConsonants] at h2
  | cons d t =>
    rw [findBreakPoint_cons, h2]
    rw [if_neg (by decide : ¬((2 : Nat) = 0)), if_neg (by decide : ¬((2 : Nat) = 1)),
      if_pos (rfl : (2 : Nat) = 2)]
    by_cases hm : (d :: t).take 2 ∈ validOnsets
    · have hv : isValidOnset ((d :: t).take 2) = true := List.elem_iff.mpr hm
      rw [if_pos hv, if_pos hm]
    · have hv : ¬(isValidOnset ((d :: t).take 2) = true) :=
        fun hh => hm (List.elem_iff.mp hh)
      rw [if_neg hv, if_neg hm]

/-- Witness for claim C2 at the suffix "rha" of "merhaba": the cluster rh is
not a valid onset, so the break point is 1. -/
theorem C2_witness :
    countLeadingConsonants ['r', 'h', 'a'] = 2 ∧
      findBreakPoint ['r', 'h', 'a'] =
        if ['r', 'h', 'a'].take 2 ∈ validOnsets then 0 else 1 :=
  ⟨by decide, C2_two_consonant_rule.1 ['r', 'h', 'a'] (by decide)⟩

/-- Claim C3: when zero consonants (hiatus V.V, or a neutral character) or
exactly one consonant (onset maximization V.CV) follow the vowel, the break
point is 0: nothing more is consumed into the current syllable. -/
theorem C3_zero_or_one_consonant :
    ∀ remaining : List Char, remaining ≠ [] →
      countLeadingConsonants remaining ≤ 1 → findBreakPoint remaining = 0 := by
  intro remaining hne hle
  cases remaining with
  | nil => exact absurd rfl hne
  | cons d t =>
    rw [findBreakPoint_cons]
    by_cases h0 : countLeadingConsonants (d :: t) = 0
    · simp [h0]
    · have h1 : countLeadingConsonants (d :: t) = 1 := by omega
      simp [h1]

/-- Witness for claim C3 at the suffix "ta" of "kitap": a single consonant
run gives break point 0. -/
theorem C3_witness :
    ['t', 'a'] ≠ ([] : List Char) ∧ countLeadingConsonants ['t', 'a'] ≤ 1 ∧
      findBreakPoint ['t', 'a'] = 0 :=
  ⟨by decide, by decide, C3_zero_or_one_consonant ['t', 'a'] (by decide) (by decide)⟩

/-- Claim C4: with three or more consecutive consonants after the vowel,
exactly one consonant is consumed into the current syllable (break point 1),
and `syllabify("anlamak") = ["an", "la", "mak"]`. -/
theorem C4_three_plus_consonants :
    (∀ remaining : List Char, 3 ≤ countLeadingConsonants remaining →
      findBreakPoint remaining = 1)
    ∧ syllabifyList "anlamak".toList =
        ["an".toList, "la".toList, "mak".toList] := by
  refine ⟨?_, by decide⟩
  intro remaining h3
  cases remaining with
  | nil => simp [countLeadingConsonants] at h3
  | cons d t =>
    rw [findBreakPoint_cons]
    have h0 : ¬(countLeadingConsonants (d :: t) = 0) := by omega
    have h1 : ¬(countLeadingConsonants (d :: t) = 1) := by omega
    have h2 : ¬(countLeadingConsonants (d :: t) = 2) := by omega
    simp [h0, h1, h2]

/-- Witness for claim C4 at the suffix "rkçe" of "türkçe": a three-consonant
run gives break point 1. -/
theorem C4_witness :
    3 ≤ countLeadingConsonants ['r', 'k', 'ç', 'e'] ∧
      findBreakPoint ['r', 'k', 'ç', 'e'] = 1 :=
  ⟨by decide, C4_three_plus_consonants.1 ['r', 'k', 'ç', 'e'] (by decide)⟩

/-- Claim C5, evaluated on the code: for the empty word, `syllabify("")` is
the empty list and `syllabify("", "-")` is the empty string, but
`syllabify("", "")` is the empty LIST, not the empty string: the early
return `"" if separator else []` tests the truthiness of the separator, so a
supplied empty separator falls into the list branch, contradicting both the
claim and the function's docstring (`otherwise joined string`), which line 85
implements as `separator is not None`. -/
theorem C5_empty_word :
    syllabify ([] : List Char) none = Sum.inl [] ∧
    syllabify ([] : List Char) (some ['-']) = Sum.inr [] ∧
    syllabify ([] : List Char) (some []) = Sum.inl [] :=
  ⟨rfl, rfl, rfl⟩

/-- Claim C6, counterexamples: the round-trip fails (1) for the empty word,
where `syllabify("", "-")` is the empty string whose Python split is `[""]`
while `syllabify("")` is `[]`, the no-occurrence hypothesis holding vacuously;
and (2) for the word "aa" with separator "aa", which occurs in no syllable
(the syllables are "a" and "a") yet the join "aaaa" splits into three empty
strings. -/
theorem C6_counterexample :
    ((∀ s ∈ syllabifyList ([] : List Char), ¬List.IsInfix ['-'] s) ∧
      syllabify ([] : List Char) (some ['-']) = Sum.inr [] ∧
      pySplit ['-'] [] ≠ syllabifyList ([] : List Char)) ∧
    ((∀ s ∈ syllabifyList "aa".toList, ¬List.IsInfix "aa".toList s) ∧
      syllabify "aa".toList (some "aa".toList) = Sum.inr "aaaa".toList ∧
      pySplit "aa".toList "aaaa".toList ≠ syllabifyList "aa".toList) := by
  refine ⟨⟨by decide, by decide, by decide⟩, ⟨by decide, by decide, by decide⟩⟩

/-- Claim C6 (amended): for every NON-EMPTY word and every SINGLE-CHARACTER
separator that occurs in no syllable, joining the syllables with the
separator and splitting on it recovers exactly `syllabify(W)`. -/
theorem C6_round_trip :
    ∀ (w : List Char) (c : Char), w ≠ [] →
      (∀ s ∈ syllabifyList w, c ∉ s) →
      syllabify w (some [c]) = Sum.inr (joinSep [c] (syllabifyList w)) ∧
      pySplit [c] (joinSep [c] (syllabifyList w)) = syllabifyList w := by
  intro w c hw hc
  have hemp : ¬(w.isEmpty = true) := fun hh => hw (List.isEmpty_iff.mp hh)
  constructor
  · unfold syllabify
    rw [if_neg hemp]
  · exact pySplit_joinSep_single c (syllabifyList w) (syllabifyList_ne_nil w hw) hc

/-- Witness for the amended claim C6 at the word "merhaba" and separator
character, a hyphen. -/
theorem C6_witness :
    ("merhaba".toList ≠ [] ∧ ∀ s ∈ syllabifyList "merhaba".toList, '-' ∉ s) ∧
      syllabify "merhaba".toList (some ['-']) =
        Sum.inr (joinSep ['-'] (syllabifyList "merhaba".toList)) ∧
      pySplit ['-'] (joinSep ['-'] (syllabifyList "merhaba".toList)) =
        syllabifyList "merhaba".toList :=
  ⟨⟨by decide, by decide⟩, C6_round_trip "merhaba".toList '-' (by decide) (by decide)⟩

/-- Claim C8: the syllable count agrees with the length of the syllable
list, and `analyze` carries one shape code per syllable and the same count. -/
theorem C8_count_consistency : ∀ w : List Char,
    count w = (syllabifyList w).length ∧
    (analyze w).structureCodes.length = count w ∧
    (analyze w).count = count w := by
  intro w
  by_cases hemp : w.isEmpty = true
  · have hw : w = [] := List.isEmpty_iff.mp hemp
    subst hw
    exact ⟨rfl, rfl, rfl⟩
  · have h1 : syllabify w none = Sum.inl (syllabifyList w) := by
      unfold syllabify
      rw [if_neg hemp]
    refine ⟨?_, ?_, ?_⟩
    · simp [count, h1]
    · simp [count, h1, analyze]
    · simp [count, h1, analyze]

/-! Lemmas about the shape codes of `analyze`. -/

/-- Shape codes use only the letters V and C. -/
theorem shapeOf_mem_VC (s : List Char) (ch : Char) (h : ch ∈ shapeOf s) :
    ch = 'V' ∨ ch = 'C' := by
  unfold shapeOf at h
  rcases List.mem_filterMap.mp h with ⟨a, _, hfa⟩
  by_cases hv : isVowel a = true
  · rw [if_pos hv] at hfa
    exact Or.inl (Option.some.inj hfa).symm
  · rw [if_neg hv] at hfa
    by_cases hc : isConsonant a = true
    · rw [if_pos hc] at hfa
      exact Or.inr (Option.some.inj hfa).symm
    · rw [if_neg hc] at hfa
      exact absurd hfa (by simp)

/-- The shape code of a syllable splits along its first character. -/
theorem shapeOf_cons (c : Char) (s : List Char) :
    shapeOf (c :: s) =
      (pyLowerChar c).filterMap
        (fun d => if isVowel d then some 'V'
          else if isConsonant d then some 'C' else none) ++ shapeOf s := by
  simp [shapeOf, lowerWord, List.filterMap_append]

/-- One input character contributes at most one letter to the shape code:
every character lowers to a single codepoint except İ, whose two-codepoint
lowering "i" + U+0307 contributes exactly the letter V (the combining mark is
neutral). -/
theorem shape_contrib_le_one (c : Char) :
    ((pyLowerChar c).filterMap
      (fun d => if isVowel d then some 'V'
        else if isConsonant d then some 'C' else none)).length ≤ 1 := by
  rcases pyLowerChar_length_eq_one_or c with h1 | hI
  · obtain ⟨l, hl⟩ := List.length_eq_one.mp h1
    rw [hl]
    cases hfl : (if isVowel l then some 'V'
        else if isConsonant l then some 'C' else none) with
    | none => simp [List.filterMap_cons, hfl]
    | some b => simp [List.filterMap_cons, hfl]
  · subst hI
    decide

/-- The shape code is never longer than the syllable. -/
theorem shapeOf_length_le : ∀ s : List Char, (shapeOf s).length ≤ s.length
  | [] => by simp [shapeOf, lowerWord]
  | c :: s => by
    rw [shapeOf_cons, List.length_append]
    have h1 := shape_contrib_le_one c
    have h2 := shapeOf_length_le s
    simp only [List.length_cons]
    omega

/-- Filtering out the neutral characters: the shape code has exactly one
letter per vowel-or-consonant character of the classified list. -/
theorem filterMap_length_countP : ∀ l : List Char,
    (l.filterMap
      (fun d => if isVowel d then some 'V'
        else if isConsonant d then some 'C' else none)).length =
      l.countP (fun c => isVowel c || isConsonant c)
  | [] => rfl
  | c :: l => by
    have ih := filterMap_length_countP l
    by_cases hv : isVowel c = true
    · simp [List.filterMap_cons, List.countP_cons, hv, ih]
    · by_cases hc : isConsonant c = true
      · simp [List.filterMap_cons, List.countP_cons, hv, hc, ih]
      · simp [List.filterMap_cons, List.countP_cons, hv, hc, ih]

/-- Claim C9: every shape code in `analyze(W).structure` is a string over
the alphabet V, C, no longer than its syllable, with exactly one letter per
vowel-or-consonant character of the lowercased syllable (neutral characters
contribute no letter). -/
theorem C9_shape_codes : ∀ (w : List Char) (p : List Char × List Char),
    p ∈ (analyze w).syllables.zip (analyze w).structureCodes →
      (∀ ch ∈ p.2, ch = 'V' ∨ ch = 'C') ∧
      p.2.length ≤ p.1.length ∧
      p.2.length = (lowerWord p.1).countP (fun c => isVowel c || isConsonant c) := by
  intro w p hp
  have hz : (analyze w).syllables.zip (analyze w).structureCodes =
      (syllabifyList w).map (fun a => (a, shapeOf a)) := by
    show (syllabifyList w).zip ((syllabifyList w).map shapeOf) = _
    have h := List.zip_map' id shapeOf (syllabifyList w)
    simpa using h
  rw [hz] at hp
  rcases List.mem_map.mp hp with ⟨a, _, hpa⟩
  subst hpa
  refine ⟨fun ch hch => shapeOf_mem_VC a ch hch, shapeOf_length_le a, ?_⟩
  show (shapeOf a).length = _
  unfold shapeOf
  exact filterMap_length_countP (lowerWord a)

/-- Witness for claim C9 at the word "kitap", syllable "ki" with shape CV. -/
theorem C9_witness :
    (("ki".toList, "CV".toList) ∈
      (analyze "kitap".toList).syllables.zip (analyze "kitap".toList).structureCodes) ∧
    (∀ ch ∈ "CV".toList, ch = 'V' ∨ ch = 'C') ∧
    "CV".toList.length ≤ "ki".toList.length ∧
    "CV".toList.length =
      (lowerWord "ki".toList).countP (fun c => isVowel c || isConsonant c) :=
  ⟨by decide, C9_shape_codes "kitap".toList ("ki".toList, "CV".toList) (by decide)⟩

/-- Claim C10: a word whose lowercased form contains at least one vowel is
segmented into exactly one syllable per vowel (trailing leftovers merge into
the last syllable instead of forming a new one), and every returned syllable
is non-empty. -/
theorem C10_one_syllable_per_vowel : ∀ w : List Char,
    1 ≤ (lowerWord w).countP (fun c => isVowel c) →
      (syllabifyList w).length = (lowerWord w).countP (fun c => isVowel c) ∧
      ∀ s ∈ syllabifyList w, s ≠ [] := by
  intro w hcv
  have hw : w ≠ [] := by
    intro h
    subst h
    simp [lowerWord] at hcv
  have hemp : ¬(w.isEmpty = true) := fun hh => hw (List.isEmpty_iff.mp hh)
  have hcount := segAuxF_count (lowerWord w).length [] (lowerWord w) (Nat.le_refl _)
  have hmem := segAuxF_mem_ne_nil (lowerWord w).length [] (lowerWord w)
  have hsys : (segAuxF (lowerWord w).length [] (lowerWord w)).1 ≠ [] := by
    intro hnil
    rw [hnil] at hcount
    simp only [List.length_nil] at hcount
    omega
  by_cases he : (segAuxF (lowerWord w).length [] (lowerWord w)).2.isEmpty = true
  · have hseg : segment (lowerWord w) =
        (segAuxF (lowerWord w).length [] (lowerWord w)).1 := by
      unfold segment segAux
      rw [if_pos he]
    constructor
    · unfold syllabifyList
      rw [if_neg hemp, restoreCase_length, hseg, hcount]
    · intro s hs
      unfold syllabifyList at hs
      rw [if_neg hemp, hseg] at hs
      exact restoreCase_mem_ne_nil _ w hmem s hs
  · have hlne : (segAuxF (lowerWord w).length [] (lowerWord w)).2 ≠ [] := by
      intro hnil
      rw [hnil] at he
      exact he rfl
    have hseg : segment (lowerWord w) =
        appendLast (segAuxF (lowerWord w).length [] (lowerWord w)).1
          (segAuxF (lowerWord w).length [] (lowerWord w)).2 := by
      unfold segment segAux
      rw [if_neg he]
    constructor
    · unfold syllabifyList
      rw [if_neg hemp, restoreCase_length, hseg, appendLast_length _ _ hsys, hcount]
    · intro s hs
      unfold syllabifyList at hs
      rw [if_neg hemp, hseg] at hs
      exact restoreCase_mem_ne_nil _ w
        (appendLast_mem_ne_nil _ _ hmem hlne) s hs

/-- Witness for claim C10 at the word "anlamak", which has three vowels and
three syllables. -/
theorem C10_witness :
    1 ≤ (lowerWord "anlamak".toList).countP (fun c => isVowel c) ∧
      (syllabifyList "anlamak".toList).length =
        (lowerWord "anlamak".toList).countP (fun c => isVowel c) ∧
      ∀ s ∈ syllabifyList "anlamak".toList, s ≠ [] :=
  ⟨by decide, C10_one_syllable_per_vowel "anlamak".toList (by decide)⟩

end Durak
